import Mathlib

/-!
Shallow embedding of the img-resize repository.

Iterators are modelled as their remaining-element lists: a Rust iterator state is
the list of elements it will still yield, `next` removes the head, `next_back`
removes the last element, and a `Clone` of an iterator is the same list.  The
`PairWith` and `Mix` adapters from src/extensions.rs are embedded as structures
over such lists, with `next`/`next_back` returning the drawn value together with
the successor state (mirroring Rust's `&mut self`).
-/

namespace ImgResize

variable {α β : Type}

/-- Embedding of `PairWith` (src/extensions.rs): a fixed `item` plus the owned
inner iterator `iter`. -/
structure PairWith (α β : Type) where
  item : α
  iter : List β
deriving Repr, DecidableEq

/-- Embedding of `PairWith::next`: draw from `iter`, pairing with a clone of `item`. -/
def PairWith.next : PairWith α β → Option ((α × β) × PairWith α β)
  | ⟨_, []⟩ => none
  | ⟨a, b :: bs⟩ => some ((a, b), ⟨a, bs⟩)

/-- Embedding of `PairWith::next_back`: draw from the tail of `iter`. -/
def PairWith.next_back (pw : PairWith α β) : Option ((α × β) × PairWith α β) :=
  match pw.iter.getLast? with
  | none => none
  | some b => some ((pw.item, b), ⟨pw.item, pw.iter.dropLast⟩)

/-- Embedding of `Mix` (src/extensions.rs): the outer iterator `first`, the
re-traversable template `second`, and the optional current inner enumerator. -/
structure Mix (α β : Type) where
  first : List α
  second : List β
  pair_with_iter : Option (PairWith α β)
deriving Repr, DecidableEq

/-- Embedding of `Mix::new`: eagerly draws the first element of `first` and, when
present, builds the inner `PairWith` over a clone of `second`. -/
def Mix.new (first : List α) (second : List β) : Mix α β :=
  match first with
  | [] => ⟨[], second, none⟩
  | a :: rest => ⟨rest, second, some ⟨a, second⟩⟩

/-- Embedding of the fall-through part of `Mix::next` (lines 110-117): advance
`first`, rebuild the inner enumerator from a fresh clone of `second`, and return
its first tuple, if any. -/
def Mix.nextAdvance (m : Mix α β) : Option (α × β) × Mix α β :=
  match m.first with
  | [] => (none, ⟨[], m.second, none⟩)
  | a :: rest =>
    match PairWith.next ⟨a, m.second⟩ with
    | some (x, pw) => (some x, ⟨rest, m.second, some pw⟩)
    | none => (none, ⟨rest, m.second, some ⟨a, m.second⟩⟩)

/-- Embedding of `Mix::next`. -/
def Mix.next (m : Mix α β) : Option (α × β) × Mix α β :=
  match m.pair_with_iter with
  | some pw =>
    match PairWith.next pw with
    | some (x, pw2) => (some x, ⟨m.first, m.second, some pw2⟩)
    | none => m.nextAdvance
  | none => m.nextAdvance

/-- Embedding of the fall-through part of `Mix::next_back` (lines 178-187). -/
def Mix.nextBackAdvance (m : Mix α β) : Option (α × β) × Mix α β :=
  match m.first.getLast? with
  | none => (none, ⟨m.first, m.second, none⟩)
  | some a =>
    match PairWith.next_back ⟨a, m.second⟩ with
    | some (x, pw) => (some x, ⟨m.first.dropLast, m.second, some pw⟩)
    | none => (none, ⟨m.first.dropLast, m.second, some ⟨a, m.second⟩⟩)

/-- Embedding of `Mix::next_back`. -/
def Mix.next_back (m : Mix α β) : Option (α × β) × Mix α β :=
  match m.pair_with_iter with
  | some pw =>
    match PairWith.next_back pw with
    | some (x, pw2) => (some x, ⟨m.first, m.second, some pw2⟩)
    | none => m.nextBackAdvance
  | none => m.nextBackAdvance

/-- Length of the current inner enumerator, zero when absent. -/
def Mix.innerLen (m : Mix α β) : Nat :=
  match m.pair_with_iter with
  | some pw => pw.iter.length
  | none => 0

/-- Fuel bound: strictly decreases along every successful `next`/`next_back` draw. -/
def Mix.steps (m : Mix α β) : Nat :=
  m.innerLen + m.first.length * (m.second.length + 1) + 1

/-- Run a step function until it signals end-of-sequence, collecting the drawn
values; `fuel` bounds the number of draws. -/
def Mix.runAux (step : Mix α β → Option (α × β) × Mix α β) :
    Nat → Mix α β → List (α × β)
  | 0, _ => []
  | fuel + 1, m =>
    match step m with
    | (some x, m2) => x :: Mix.runAux step fuel m2
    | (none, _) => []

theorem Mix.steps_next_lt {m m2 : Mix α β} {x : α × β}
    (h : m.next = (some x, m2)) : m2.steps < m.steps := by
  rcases m with ⟨fs, s, _ | ⟨a, _ | ⟨b, bs⟩⟩⟩
  · -- no inner enumerator: fall through to the advance path
    rcases fs with _ | ⟨f, fr⟩
    · simp [Mix.next, Mix.nextAdvance] at h
    · rcases s with _ | ⟨c, cs⟩
      · simp [Mix.next, Mix.nextAdvance, PairWith.next] at h
      · simp only [Mix.next, Mix.nextAdvance, PairWith.next, Prod.mk.injEq,
          Option.some.injEq] at h
        obtain ⟨-, rfl⟩ := h
        simp only [Mix.steps, Mix.innerLen, List.length_cons, Nat.succ_mul]
        generalize fr.length * (cs.length + 1 + 1) = K
        omega
  · -- inner enumerator exhausted: fall through to the advance path
    rcases fs with _ | ⟨f, fr⟩
    · simp [Mix.next, Mix.nextAdvance, PairWith.next] at h
    · rcases s with _ | ⟨c, cs⟩
      · simp [Mix.next, Mix.nextAdvance, PairWith.next] at h
      · simp only [Mix.next, Mix.nextAdvance, PairWith.next, Prod.mk.injEq,
          Option.some.injEq] at h
        obtain ⟨-, rfl⟩ := h
        simp only [Mix.steps, Mix.innerLen, List.length_cons, List.length_nil,
          Nat.succ_mul]
        generalize fr.length * (cs.length + 1 + 1) = K
        omega
  · -- inner enumerator yields a pair
    simp only [Mix.next, PairWith.next, Prod.mk.injEq, Option.some.injEq] at h
    obtain ⟨-, rfl⟩ := h
    simp only [Mix.steps, Mix.innerLen, List.length_cons]
    omega

theorem Mix.steps_next_back_lt {m m2 : Mix α β} {x : α × β}
    (h : m.next_back = (some x, m2)) : m2.steps < m.steps := by
  rcases m with ⟨fs, s, pw?⟩
  rcases hpw : pw?.map (fun pw : PairWith α β => pw.iter) with _ | bs0
  all_goals rcases pw? with _ | ⟨a, bs⟩ <;> simp at hpw
  · -- no inner enumerator: fall through to the back-advance path
    rcases fs.eq_nil_or_concat with rfl | ⟨fr, f, rfl⟩
    · simp [Mix.next_back, Mix.nextBackAdvance] at h
    · rcases s.eq_nil_or_concat with rfl | ⟨cs, c, rfl⟩
      · simp [Mix.next_back, Mix.nextBackAdvance, PairWith.next_back, List.concat_eq_append] at h
      · simp only [List.concat_eq_append, Mix.next_back, Mix.nextBackAdvance,
          PairWith.next_back, List.getLast?_concat, List.dropLast_concat,
          Prod.mk.injEq, Option.some.injEq] at h
        obtain ⟨-, rfl⟩ := h
        simp only [List.concat_eq_append, Mix.steps, Mix.innerLen,
          List.length_append, List.length_cons, List.length_nil, Nat.succ_mul,
          Nat.add_mul]
        generalize fr.length * (cs.length + 0 + 1 + 1) = K
        omega
  · subst hpw
    rcases bs.eq_nil_or_concat with rfl | ⟨bs2, b, rfl⟩
    · -- inner enumerator exhausted: fall through to the back-advance path
      rcases fs.eq_nil_or_concat with rfl | ⟨fr, f, rfl⟩
      · simp [Mix.next_back, Mix.nextBackAdvance, PairWith.next_back, List.concat_eq_append] at h
      · rcases s.eq_nil_or_concat with rfl | ⟨cs, c, rfl⟩
        · simp [Mix.next_back, Mix.nextBackAdvance, PairWith.next_back, List.concat_eq_append] at h
        · simp only [List.concat_eq_append, Mix.next_back, Mix.nextBackAdvance,
            PairWith.next_back, List.getLast?_nil, List.getLast?_concat,
            List.dropLast_concat, Prod.mk.injEq, Option.some.injEq] at h
          obtain ⟨-, rfl⟩ := h
          simp only [List.concat_eq_append, Mix.steps, Mix.innerLen,
            List.length_append, List.length_cons, List.length_nil, Nat.succ_mul,
            Nat.add_mul]
          generalize fr.length * (cs.length + 0 + 1 + 1) = K
          omega
    · -- inner enumerator yields a pair from its tail
      simp only [List.concat_eq_append, Mix.next_back, PairWith.next_back,
        List.getLast?_concat, List.dropLast_concat, Prod.mk.injEq,
        Option.some.injEq] at h
      obtain ⟨-, rfl⟩ := h
      simp only [List.concat_eq_append, Mix.steps, Mix.innerLen,
        List.length_append, List.length_cons, List.length_nil]
      omega

/-- Fuel irrelevance: any fuel at least `steps` computes the same enumeration. -/
theorem Mix.runAux_congr (step : Mix α β → Option (α × β) × Mix α β)
    (hdec : ∀ {m m2 : Mix α β} {x : α × β}, step m = (some x, m2) → m2.steps < m.steps) :
    ∀ (f g : Nat) (m : Mix α β), m.steps ≤ f → m.steps ≤ g →
      Mix.runAux step f m = Mix.runAux step g m := by
  intro f
  induction f with
  | zero =>
    intro g m hf _
    have := m.steps
    simp [Mix.steps] at hf
  | succ f ih =>
    intro g m hf hg
    have hpos : 1 ≤ m.steps := by simp [Mix.steps]
    rcases g with _ | g
    · omega
    · rcases hstep : step m with ⟨_ | x, m2⟩
      · simp [Mix.runAux, hstep]
      · have hlt : m2.steps < m.steps := hdec hstep
        simp only [Mix.runAux, hstep]
        rw [ih g m2 (by omega) (by omega)]

/-- Full forward enumeration of a `Mix` state: what collecting the iterator via
repeated `Mix::next` calls yields. -/
def Mix.toList (m : Mix α β) : List (α × β) :=
  Mix.runAux Mix.next m.steps m

/-- Full backward enumeration of a `Mix` state: what collecting the iterator via
repeated `Mix::next_back` calls yields. -/
def Mix.toListBack (m : Mix α β) : List (α × β) :=
  Mix.runAux Mix.next_back m.steps m

theorem Mix.toList_next_some {m m2 : Mix α β} {x : α × β}
    (h : m.next = (some x, m2)) : m.toList = x :: m2.toList := by
  have hlt : m2.steps < m.steps := Mix.steps_next_lt h
  have e1 : m.toList = Mix.runAux Mix.next m.steps m := rfl
  have e2 : m2.toList = Mix.runAux Mix.next m2.steps m2 := rfl
  obtain ⟨k, hk⟩ : ∃ k, m.steps = k + 1 := ⟨m.steps - 1, by simp [Mix.steps]⟩
  rw [e1, e2, hk]
  simp only [Mix.runAux, h]
  exact congrArg (x :: .) (Mix.runAux_congr Mix.next
    (fun h2 => Mix.steps_next_lt h2) k m2.steps m2 (by omega) (le_refl _))

theorem Mix.toList_next_none {m : Mix α β} (h : m.next.1 = none) :
    m.toList = [] := by
  have e1 : m.toList = Mix.runAux Mix.next m.steps m := rfl
  obtain ⟨k, hk⟩ : ∃ k, m.steps = k + 1 := ⟨m.steps - 1, by simp [Mix.steps]⟩
  rcases hstep : m.next with ⟨o, m2⟩
  rw [hstep] at h
  simp only at h
  subst h
  rw [e1, hk]
  simp [Mix.runAux, hstep]

theorem Mix.toListBack_next_some {m m2 : Mix α β} {x : α × β}
    (h : m.next_back = (some x, m2)) : m.toListBack = x :: m2.toListBack := by
  have hlt : m2.steps < m.steps := Mix.steps_next_back_lt h
  have e1 : m.toListBack = Mix.runAux Mix.next_back m.steps m := rfl
  have e2 : m2.toListBack = Mix.runAux Mix.next_back m2.steps m2 := rfl
  obtain ⟨k, hk⟩ : ∃ k, m.steps = k + 1 := ⟨m.steps - 1, by simp [Mix.steps]⟩
  rw [e1, e2, hk]
  simp only [Mix.runAux, h]
  exact congrArg (x :: .) (Mix.runAux_congr Mix.next_back
    (fun h2 => Mix.steps_next_back_lt h2) k m2.steps m2 (by omega) (le_refl _))

theorem Mix.toListBack_next_none {m : Mix α β} (h : m.next_back.1 = none) :
    m.toListBack = [] := by
  have e1 : m.toListBack = Mix.runAux Mix.next_back m.steps m := rfl
  obtain ⟨k, hk⟩ : ∃ k, m.steps = k + 1 := ⟨m.steps - 1, by simp [Mix.steps]⟩
  rcases hstep : m.next_back with ⟨o, m2⟩
  rw [hstep] at h
  simp only at h
  subst h
  rw [e1, hk]
  simp [Mix.runAux, hstep]

/-- Forward enumeration from a state whose inner enumerator pairs `a` with the
remaining `bs`: first the rest of the current block, then a full block for every
remaining element of `first`, each over a fresh clone of `second`. -/
theorem Mix.toList_state (s : List β) :
    ∀ (fs : List α) (a : α) (bs : List β),
      (Mix.mk fs s (some ⟨a, bs⟩)).toList =
        bs.map (fun b => (a, b)) ++ fs.flatMap (fun x => s.map (fun b => (x, b))) := by
  intro fs
  induction fs with
  | nil =>
    intro a bs
    induction bs with
    | nil =>
      have h : (Mix.mk ([] : List α) s (some ⟨a, ([] : List β)⟩)).next.1 = none := rfl
      rw [Mix.toList_next_none h]
      simp
    | cons b bs ih =>
      have h : (Mix.mk ([] : List α) s (some ⟨a, b :: bs⟩)).next
          = (some (a, b), Mix.mk ([] : List α) s (some ⟨a, bs⟩)) := rfl
      rw [Mix.toList_next_some h, ih]
      simp
  | cons f fr ihf =>
    intro a bs
    induction bs with
    | nil =>
      rcases s with _ | ⟨c, cs⟩
      · have h : (Mix.mk (f :: fr) ([] : List β) (some ⟨a, ([] : List β)⟩)).next.1
            = none := rfl
        rw [Mix.toList_next_none h]
        simp
      · have h : (Mix.mk (f :: fr) (c :: cs) (some ⟨a, ([] : List β)⟩)).next
            = (some (f, c), Mix.mk fr (c :: cs) (some ⟨f, cs⟩)) := rfl
        rw [Mix.toList_next_some h, ihf f cs]
        simp [List.flatMap_cons]
    | cons b bs ih =>
      have h : (Mix.mk (f :: fr) s (some ⟨a, b :: bs⟩)).next
          = (some (a, b), Mix.mk (f :: fr) s (some ⟨a, bs⟩)) := rfl
      rw [Mix.toList_next_some h, ih]
      simp

/-- Forward enumeration of a freshly constructed `Mix` is the cartesian product
in outer-`first` / inner-`second` order. -/
theorem Mix.toList_new (A : List α) (B : List β) :
    (Mix.new A B).toList = A.flatMap (fun a => B.map (fun b => (a, b))) := by
  rcases A with _ | ⟨a, as⟩
  · have h : (Mix.new ([] : List α) B).next.1 = none := rfl
    rw [Mix.toList_next_none h]
    simp
  · show (Mix.mk as B (some ⟨a, B⟩)).toList = _
    rw [Mix.toList_state]
    simp [List.flatMap_cons]

/-- Backward enumeration from a state whose inner enumerator pairs `a` with the
remaining `bs`: first the rest of the current block from its tail, then a
backwards block for every remaining element of `first`, walked from its tail. -/
theorem Mix.toListBack_state (s : List β) :
    ∀ (fs : List α) (a : α) (bs : List β),
      (Mix.mk fs s (some ⟨a, bs⟩)).toListBack =
        bs.reverse.map (fun b => (a, b)) ++
          fs.reverse.flatMap (fun x => s.reverse.map (fun b => (x, b))) := by
  intro fs
  induction fs using List.reverseRecOn with
  | nil =>
    intro a bs
    induction bs using List.reverseRecOn with
    | nil =>
      have h : (Mix.mk ([] : List α) s (some ⟨a, []⟩)).next_back.1 = none := by
        simp [Mix.next_back, PairWith.next_back, Mix.nextBackAdvance]
      rw [Mix.toListBack_next_none h]
      simp
    | append_singleton bs b ih =>
      have h : (Mix.mk ([] : List α) s (some ⟨a, bs ++ [b]⟩)).next_back
          = (some (a, b), Mix.mk ([] : List α) s (some ⟨a, bs⟩)) := by
        simp [Mix.next_back, PairWith.next_back]
      rw [Mix.toListBack_next_some h, ih]
      simp
  | append_singleton fr f ihf =>
    intro a bs
    induction bs using List.reverseRecOn with
    | nil =>
      rcases s.eq_nil_or_concat with rfl | ⟨cs, c, rfl⟩
      · have h : (Mix.mk (fr ++ [f]) ([] : List β) (some ⟨a, []⟩)).next_back.1
            = none := by
          simp [Mix.next_back, PairWith.next_back, Mix.nextBackAdvance]
        rw [Mix.toListBack_next_none h]
        simp
      · have h : (Mix.mk (fr ++ [f]) (cs.concat c) (some ⟨a, []⟩)).next_back
            = (some (f, c), Mix.mk fr (cs.concat c) (some ⟨f, cs⟩)) := by
          simp [Mix.next_back, PairWith.next_back, Mix.nextBackAdvance,
            List.concat_eq_append]
        rw [Mix.toListBack_next_some h, ihf f cs]
        simp [List.concat_eq_append, List.flatMap_cons]
    | append_singleton bs b ih =>
      have h : (Mix.mk (fr ++ [f]) s (some ⟨a, bs ++ [b]⟩)).next_back
          = (some (a, b), Mix.mk (fr ++ [f]) s (some ⟨a, bs⟩)) := by
        simp [Mix.next_back, PairWith.next_back]
      rw [Mix.toListBack_next_some h, ih]
      simp

/-- Backward enumeration of a fresh `Mix` over an empty `first` is empty. -/
theorem Mix.toListBack_new_nil (B : List β) :
    (Mix.new ([] : List α) B).toListBack = [] :=
  Mix.toListBack_next_none rfl

/-- Backward enumeration of a fresh `Mix`: the eagerly drawn head element's
block comes first (second components reversed), then the remaining elements of
`first` in reverse order, each with second components reversed. -/
theorem Mix.toListBack_new_cons (a : α) (as : List α) (B : List β) :
    (Mix.new (a :: as) B).toListBack =
      B.reverse.map (fun b => (a, b)) ++
        as.reverse.flatMap (fun x => B.reverse.map (fun b => (x, b))) := by
  show (Mix.mk as B (some ⟨a, B⟩)).toListBack = _
  rw [Mix.toListBack_state]

/-- Backward enumeration is a permutation of forward enumeration. -/
theorem Mix.toListBack_perm_toList (A : List α) (B : List β) :
    (Mix.new A B).toListBack.Perm ((Mix.new A B).toList) := by
  rcases A with _ | ⟨a, as⟩
  · rw [Mix.toListBack_new_nil, Mix.toList_new]
    simp
  · rw [Mix.toListBack_new_cons, Mix.toList_new, List.flatMap_cons]
    refine List.Perm.append ((List.reverse_perm B).map _) ?_
    refine ((List.reverse_perm as).flatMap_right _).trans ?_
    exact List.Perm.flatMap_left _ (fun x _ => (List.reverse_perm B).map _)

/-- The number of values representable in Rust's 64-bit `usize`. -/
def USIZE : Nat := 18446744073709551616

/-- Embedding of `usize::checked_mul`: `none` models overflow. -/
def checked_mul (a b : Nat) : Option Nat :=
  if a * b < USIZE then some (a * b) else none

/-- Embedding of `Mix::size_hint` (src/extensions.rs lines 120-142).  A list
iterator reports the exact size hint `(length, some length)`; note the code
reads the size hints of the stored `first` (already advanced past the eagerly
drawn element) and of the `second` template. -/
def Mix.size_hint (m : Mix α β) : Nat × Option Nat :=
  let first_min := m.first.length
  let first_max : Option Nat := some m.first.length
  let second_min := m.second.length
  let second_max : Option Nat := some m.second.length
  let min := (checked_mul first_min second_min).getD (USIZE - 1)
  let max : Option Nat :=
    match first_max, second_max with
    | some 0, _ => some 0
    | _, some 0 => some 0
    | some a, some b => checked_mul a b
    | _, _ => none
  (min, max)

/-- Embedding of `Mix::count` (src/extensions.rs lines 144-149):
`self.first.count() * self.second.count()`, where counting a list iterator
yields its length. -/
def Mix.count (m : Mix α β) : Nat :=
  m.first.length * m.second.length

/-- Pixel-buffer model of the image collaborator: dimensions plus a total pixel
lookup function. -/
structure Image (P : Type) where
  width : Nat
  height : Nat
  pix : Nat → Nat → P

/-- Modelled from the spec: the image collaborator's `overlay(dest, src, x, y)`
primitive (spec section 6, not part of src/) copies the pixels of `src` onto
`dest` at the given offset, itself clipping to `dest`'s bounds. -/
def overlay {P : Type} (base repeated : Image P) (x y : Nat) : Image P :=
  ⟨base.width, base.height, fun px py =>
    if x ≤ px ∧ px < x + repeated.width ∧ px < base.width ∧
        y ≤ py ∧ py < y + repeated.height ∧ py < base.height then
      repeated.pix (px - x) (py - y)
    else
      base.pix px py⟩

/-- Embedding of `repeat` (src/main.rs lines 67-87): overlay `repeated` at every
grid position `(i, j)` enumerated by `Mix` over the truncated repetition
counts. -/
def «repeat» {P : Type} (base repeated : Image P) : Image P :=
  ((Mix.new (List.range (base.width / repeated.width))
      (List.range (base.height / repeated.height))).toList).foldl
    (fun b ij => overlay b repeated (ij.1 * repeated.width) (ij.2 * repeated.height))
    base

/-- The number of values representable in Rust's 32-bit `u32`. -/
def U32 : Nat := 4294967296

/-- Wrapping `u32` multiplication. -/
def u32_mul (a b : Nat) : Nat := a * b % U32

/-- `u32` division; `none` models the division-by-zero panic. -/
def u32_div (a b : Nat) : Option Nat :=
  if b = 0 then none else some (a / b)

/-- Embedding of the dimension-resolution arithmetic of `main`
(src/main.rs lines 46-49): `(width * output_width) / fit_width` and
`(height * output_height) / fit_height` in `u32` arithmetic. -/
def resolveDimensions (sw sh fw fh ow oh : Nat) : Option (Nat × Nat) :=
  match u32_div (u32_mul sw ow) fw with
  | none => none
  | some w =>
    match u32_div (u32_mul sh oh) fh with
    | none => none
    | some h => some (w, h)

/-- Embedding of the resize branch of `main` after decoding (src/main.rs lines
42-57): resolve the target dimensions, allocate a zero-filled canvas of that
size, and tile the decoded image across it; `none` models the fatal error
paths. -/
def runResize {P : Type} (z : P) (image : Image P) (fw fh ow oh : Nat) :
    Option (Image P) :=
  match resolveDimensions image.width image.height fw fh ow oh with
  | none => none
  | some (w, h) => some («repeat» ⟨w, h, fun _ _ => z⟩ image)

/-- Embedding of `SizeError` (src/cli.rs). -/
inductive SizeError where
  | missingSeparator (s : List Char)
  | dimensionParseError
deriving Repr, DecidableEq

/-- Embedding of `str::parse::<u32>`: an optional leading plus sign, then a
nonempty run of ASCII digits whose value fits in `u32`. -/
def parse_u32 (s : List Char) : Option Nat :=
  let ds := match s with
    | '+' :: rest => rest
    | _ => s
  if ds.isEmpty then none
  else if ds.all Char.isDigit then
    let v := ds.foldl (fun acc c => acc * 10 + (c.toNat - 48)) 0
    if v < U32 then some v else none
  else none

/-- Embedding of `Size::from_str` (src/cli.rs lines 83-98): find the first
character matching `'x'`, then parse the text before it and the entire text
after it. -/
def Size.from_str (s : List Char) : Except SizeError (Nat × Nat) :=
  match s.findIdx? (fun c => c == 'x') with
  | none => .error (.missingSeparator s)
  | some separator_pos =>
    match parse_u32 (s.take separator_pos) with
    | none => .error .dimensionParseError
    | some width =>
      match parse_u32 (s.drop (separator_pos + 1)) with
      | none => .error .dimensionParseError
      | some height => .ok (width, height)

/-- The placement fold of `repeat`, over an explicit placement list. -/
def place {P : Type} (repeated : Image P) (l : List (Nat × Nat)) (base : Image P) :
    Image P :=
  l.foldl
    (fun b ij => overlay b repeated (ij.1 * repeated.width) (ij.2 * repeated.height))
    base

theorem repeat_eq_place {P : Type} (base repeated : Image P) :
    «repeat» base repeated =
      place repeated
        ((Mix.new (List.range (base.width / repeated.width))
          (List.range (base.height / repeated.height))).toList) base := rfl

/-- The horizontal/vertical span written by the overlay call for grid position
`ij` (before clipping to the base canvas). -/
abbrev covers (w h : Nat) (ij : Nat × Nat) (px py : Nat) : Prop :=
  ij.1 * w ≤ px ∧ px < ij.1 * w + w ∧ ij.2 * h ≤ py ∧ py < ij.2 * h + h

theorem overlay_pix_eq {P : Type} (b r : Image P) (x y px py : Nat) :
    (overlay b r x y).pix px py =
      if x ≤ px ∧ px < x + r.width ∧ px < b.width ∧
          y ≤ py ∧ py < y + r.height ∧ py < b.height then
        r.pix (px - x) (py - y)
      else b.pix px py := rfl

theorem place_width {P : Type} (repeated : Image P) (l : List (Nat × Nat)) :
    ∀ base : Image P, (place repeated l base).width = base.width := by
  induction l with
  | nil => intro base; rfl
  | cons ij l ih => intro base; exact ih _

theorem place_height {P : Type} (repeated : Image P) (l : List (Nat × Nat)) :
    ∀ base : Image P, (place repeated l base).height = base.height := by
  induction l with
  | nil => intro base; rfl
  | cons ij l ih => intro base; exact ih _

/-- A pixel whose value every placement in `l` would rewrite to `v` (if it
covers it at all) keeps the value `v` through the whole fold. -/
theorem place_pix_keep {P : Type} (repeated : Image P) (l : List (Nat × Nat)) :
    ∀ (base : Image P) (px py : Nat) (v : P),
      base.pix px py = v →
      (∀ ij ∈ l, covers repeated.width repeated.height ij px py →
        repeated.pix (px - ij.1 * repeated.width) (py - ij.2 * repeated.height) = v) →
      (place repeated l base).pix px py = v := by
  induction l with
  | nil => intro base px py v hb _; exact hb
  | cons ij l ih =>
    intro base px py v hb h
    refine ih (overlay base repeated (ij.1 * repeated.width) (ij.2 * repeated.height))
      px py v ?_ ?_
    · rw [overlay_pix_eq]
      by_cases hfull : ij.1 * repeated.width ≤ px ∧
          px < ij.1 * repeated.width + repeated.width ∧ px < base.width ∧
          ij.2 * repeated.height ≤ py ∧
          py < ij.2 * repeated.height + repeated.height ∧ py < base.height
      · rw [if_pos hfull]
        exact h ij (List.mem_cons_self ij l)
          ⟨hfull.1, hfull.2.1, hfull.2.2.2.1, hfull.2.2.2.2.1⟩
      · rw [if_neg hfull]
        exact hb
    · intro p hp hc
      exact h p (List.mem_cons_of_mem _ hp) hc

/-- A pixel covered by the placement `ij`, and by no later placement other than
`ij` itself, ends up holding the corresponding tile pixel. -/
theorem place_pix_set {P : Type} (repeated : Image P) (l1 l2 : List (Nat × Nat))
    (ij : Nat × Nat) (base : Image P) (px py : Nat)
    (hcov : covers repeated.width repeated.height ij px py)
    (hpx : px < base.width) (hpy : py < base.height)
    (huniq : ∀ p ∈ l2, covers repeated.width repeated.height p px py → p = ij) :
    (place repeated (l1 ++ ij :: l2) base).pix px py =
      repeated.pix (px - ij.1 * repeated.width) (py - ij.2 * repeated.height) := by
  have hsplit : place repeated (l1 ++ ij :: l2) base =
      place repeated l2 (overlay (place repeated l1 base) repeated
        (ij.1 * repeated.width) (ij.2 * repeated.height)) := by
    simp [place, List.foldl_append]
  rw [hsplit]
  refine place_pix_keep repeated l2 _ px py _ ?_ ?_
  · have h3 : px < (place repeated l1 base).width := by
      rw [place_width]
      exact hpx
    have h6 : py < (place repeated l1 base).height := by
      rw [place_height]
      exact hpy
    rw [overlay_pix_eq, if_pos ⟨hcov.1, hcov.2.1, h3, hcov.2.2.1, hcov.2.2.2, h6⟩]
  · intro p hp hc
    rw [huniq p hp hc]

/-- Two grid slots of width `w` that both span a common point coincide. -/
theorem slot_eq {w i j px : Nat} (h1 : i * w ≤ px) (h2 : px < i * w + w)
    (h3 : j * w ≤ px) (h4 : px < j * w + w) : i = j := by
  rcases Nat.lt_trichotomy i j with hij | hij | hij
  · have hm : (i + 1) * w ≤ j * w := Nat.mul_le_mul_right w hij
    rw [Nat.succ_mul] at hm
    omega
  · exact hij
  · have hm : (j + 1) * w ≤ i * w := Nat.mul_le_mul_right w hij
    rw [Nat.succ_mul] at hm
    omega

/-- The forward enumeration of a fresh `Mix` is the list cartesian product. -/
theorem Mix.toList_new_product (A : List α) (B : List β) :
    (Mix.new A B).toList = A ×ˢ B := by
  rw [Mix.toList_new]
  rfl

theorem findIdx?_sep_none :
    ∀ (l : List Char) (i : Nat), 'x' ∉ l →
      l.findIdx? (fun c => c == 'x') i = none := by
  intro l
  induction l with
  | nil => intro i _; rfl
  | cons c cs ih =>
    intro i h
    have h1 : ¬(c = 'x') := fun hc => h (by rw [hc]; exact List.mem_cons_self _ _)
    have h2 : 'x' ∉ cs := fun hm => h (List.mem_cons_of_mem _ hm)
    simp only [List.findIdx?_cons, beq_iff_eq, if_neg h1]
    exact ih _ h2

theorem findIdx?_sep_append :
    ∀ (l r : List Char) (i : Nat), 'x' ∉ l →
      (l ++ 'x' :: r).findIdx? (fun c => c == 'x') i = some (i + l.length) := by
  intro l
  induction l with
  | nil =>
    intro r i _
    simp [List.findIdx?_cons]
  | cons c cs ih =>
    intro r i h
    have h1 : ¬(c = 'x') := fun hc => h (by rw [hc]; exact List.mem_cons_self _ _)
    have h2 : 'x' ∉ cs := fun hm => h (List.mem_cons_of_mem _ hm)
    simp only [List.cons_append, List.findIdx?_cons, beq_iff_eq, if_neg h1]
    rw [ih r (i + 1) h2]
    congr 1
    simp only [List.length_cons]
    omega

theorem findIdx?_sep_isSome :
    ∀ (l : List Char) (i : Nat), 'x' ∈ l →
      ∃ j, l.findIdx? (fun c => c == 'x') i = some j := by
  intro l
  induction l with
  | nil => intro i h; cases h
  | cons c cs ih =>
    intro i h
    by_cases hc : c = 'x'
    · exact ⟨i, by simp [List.findIdx?_cons, hc]⟩
    · have hmem : 'x' ∈ cs := by
        rcases List.mem_cons.mp h with h1 | h1
        · exact absurd h1.symm hc
        · exact h1
      obtain ⟨j, hj⟩ := ih (i + 1) hmem
      exact ⟨j, by simp only [List.findIdx?_cons, beq_iff_eq, if_neg hc]; exact hj⟩

theorem drop_sep_append (l : List Char) (c : Char) (r : List Char) :
    (l ++ c :: r).drop (l.length + 1) = r := by
  have h : l ++ c :: r = (l ++ [c]) ++ r := by simp
  rw [h, List.drop_left' (by simp)]

/-- `Size::from_str` on a string whose first `'x'` separates `l` from `r`
parses the two halves. -/
theorem from_str_split (l r : List Char) (h : 'x' ∉ l) :
    Size.from_str (l ++ 'x' :: r) =
      match parse_u32 l with
      | none => .error .dimensionParseError
      | some w =>
        match parse_u32 r with
        | none => .error .dimensionParseError
        | some hgt => .ok (w, hgt) := by
  have hfind : (l ++ 'x' :: r).findIdx? (fun c => c == 'x') = some l.length := by
    rw [findIdx?_sep_append l r 0 h]
    congr 1
    omega
  unfold Size.from_str
  rw [hfind]
  simp only [List.take_left, drop_sep_append]

/-- `Size::from_str` reports a missing separator exactly on inputs with no
lowercase `'x'`. -/
theorem from_str_missing_iff (s : List Char) :
    Size.from_str s = .error (.missingSeparator s) ↔ 'x' ∉ s := by
  constructor
  · intro h hmem
    obtain ⟨j, hj⟩ := findIdx?_sep_isSome s 0 hmem
    unfold Size.from_str at h
    rw [hj] at h
    rcases h1 : parse_u32 (s.take j) with _ | w
    · simp [h1] at h
    · rcases h2 : parse_u32 (s.drop (j + 1)) with _ | hgt
      · simp [h1, h2] at h
      · simp [h1, h2] at h
  · intro h
    unfold Size.from_str
    rw [findIdx?_sep_none s 0 h]

/-- Shared helper: dimension resolution with a nonzero divisor and products
below `U32` computes the exact truncated quotients. -/
theorem resolveDimensions_eq_of_lt (sw sh fw fh ow oh : Nat) (hfw : fw ≠ 0)
    (hfh : fh ≠ 0) (hw : sw * ow < U32) (hh : sh * oh < U32) :
    resolveDimensions sw sh fw fh ow oh = some (sw * ow / fw, sh * oh / fh) := by
  simp only [resolveDimensions, u32_div, u32_mul, if_neg hfw, if_neg hfh,
    Nat.mod_eq_of_lt hw, Nat.mod_eq_of_lt hh]

/-- Claim C1: the Mix enumeration of A and B yields exactly m·n pairs, each
(a, b) combination (exactly once when the inputs are duplicate-free), ordered
with the outer loop over A and the inner loop over a fresh traversal of B. -/
theorem mix_cartesian_product (A : List α) (B : List β) :
    (Mix.new A B).toList = A.flatMap (fun a => B.map (fun b => (a, b))) ∧
    (Mix.new A B).toList.length = A.length * B.length ∧
    (∀ (a : α) (b : β), (a, b) ∈ (Mix.new A B).toList ↔ a ∈ A ∧ b ∈ B) ∧
    (A.Nodup → B.Nodup → (Mix.new A B).toList.Nodup) := by
  refine ⟨Mix.toList_new A B, ?_, ?_, ?_⟩
  · rw [Mix.toList_new_product, List.length_product]
  · intro a b
    rw [Mix.toList_new_product]
    exact List.mem_product
  · intro hA hB
    rw [Mix.toList_new_product]
    exact hA.product hB

theorem mix_cartesian_product_witness :
    ([1, 2, 3] : List Nat).Nodup ∧ ([4, 5, 6] : List Nat).Nodup ∧
    (Mix.new ([1, 2, 3] : List Nat) ([4, 5, 6] : List Nat)).toList.Nodup ∧
    (Mix.new ([1, 2, 3] : List Nat) ([4, 5, 6] : List Nat)).toList.length = 3 * 3 :=
  ⟨by decide, by decide,
    (mix_cartesian_product [1, 2, 3] [4, 5, 6]).2.2.2 (by decide) (by decide),
    (mix_cartesian_product [1, 2, 3] [4, 5, 6]).2.1⟩

/-- Claim C2 counterexample: fully consuming Mix([0, 1], [10]) by reverse draws
yields [(0, 10), (1, 10)] — the eagerly drawn head element 0 comes first — not
the claimed reverse-of-A order [(1, 10), (0, 10)]. -/
theorem mix_reverse_order_counterexample :
    (Mix.new ([0, 1] : List Nat) ([10] : List Nat)).toListBack = [(0, 10), (1, 10)] ∧
    (Mix.new ([0, 1] : List Nat) ([10] : List Nat)).toListBack ≠
      ([0, 1] : List Nat).reverse.flatMap
        (fun a => ([10] : List Nat).reverse.map (fun b => (a, b))) := by
  exact ⟨by decide, by decide⟩

/-- Claim C2 as amended: reverse draws yield the same multiset of pairs as
forward enumeration; the block of the eagerly drawn head element of A comes
first, then the remaining elements of A in reverse order, and within every
block the second components are visited in reverse order of B. -/
theorem mix_reverse_enumeration (a : α) (as : List α) (B : List β) :
    (Mix.new (a :: as) B).toListBack =
      B.reverse.map (fun b => (a, b)) ++
        as.reverse.flatMap (fun x => B.reverse.map (fun b => (x, b))) ∧
    ((Mix.new (a :: as) B).toListBack).Perm ((Mix.new (a :: as) B).toList) ∧
    (Mix.new ([] : List α) B).toListBack = [] :=
  ⟨Mix.toListBack_new_cons a as B, Mix.toListBack_perm_toList _ B,
    Mix.toListBack_new_nil B⟩

theorem mix_reverse_enumeration_witness :
    (Mix.new ([7, 8] : List Nat) ([1, 2] : List Nat)).toListBack =
      ([1, 2] : List Nat).reverse.map (fun b => (7, b)) ++
        ([8] : List Nat).reverse.flatMap
          (fun x => ([1, 2] : List Nat).reverse.map (fun b => (x, b))) :=
  (mix_reverse_enumeration 7 [8] [1, 2]).1

/-- Claim C3: evaluation at the failing input — a freshly constructed Mix over
two one-element sequences yields one pair, yet its size hint is (0, some 0) and
its count is 0, because both read `first` after the eager draw. -/
theorem mix_size_hint_count_failing :
    (Mix.new ([0] : List Nat) ([0] : List Nat)).toList.length = 1 ∧
    (Mix.new ([0] : List Nat) ([0] : List Nat)).size_hint = (0, some 0) ∧
    (Mix.new ([0] : List Nat) ([0] : List Nat)).count = 0 := by
  exact ⟨by decide, by decide, by decide⟩

/-- Claim C6: if either source sequence is empty, Mix yields zero pairs and its
very first draw signals end-of-sequence, whatever the other sequence is. -/
theorem mix_empty_short_circuit (A : List α) (B : List β) (h : A = [] ∨ B = []) :
    (Mix.new A B).next.1 = none ∧ (Mix.new A B).toList = [] := by
  rcases h with rfl | rfl
  · exact ⟨rfl, Mix.toList_next_none rfl⟩
  · rcases A with _ | ⟨a, as⟩
    · exact ⟨rfl, Mix.toList_next_none rfl⟩
    · rcases as with _ | ⟨a2, as2⟩
      · exact ⟨rfl, Mix.toList_next_none rfl⟩
      · exact ⟨rfl, Mix.toList_next_none rfl⟩

theorem mix_empty_short_circuit_witness :
    (Mix.new ([] : List Nat) ([1, 2, 3] : List Nat)).next.1 = none ∧
    (Mix.new ([] : List Nat) ([1, 2, 3] : List Nat)).toList = [] :=
  mix_empty_short_circuit [] [1, 2, 3] (Or.inl rfl)

/-- Claim C5 counterexample: with source width 65536, output width 65536 and
fit width 1 the u32 product wraps, so dimension resolution does not return the
exact truncated quotient the claim promises for every input. -/
theorem resolve_dimensions_exact_counterexample :
    resolveDimensions 65536 1 1 1 65536 1 = some (0, 1) ∧
    resolveDimensions 65536 1 1 1 65536 1 ≠ some (65536 * 65536 / 1, 1 * 1 / 1) := by
  exact ⟨by decide, by decide⟩

/-- Claim C5 as amended: for nonzero fit dimensions, and provided each product
fits in u32, dimension resolution returns exactly
(source·output÷fit) with truncating division, no rounding and no clamping; the
4x2 / 8x2 scenario on a 200×100 source resolves to (400, 100). -/
theorem resolve_dimensions_truncating (sw sh fw fh ow oh : Nat) (hfw : fw ≠ 0)
    (hfh : fh ≠ 0) (hw : sw * ow < U32) (hh : sh * oh < U32) :
    resolveDimensions sw sh fw fh ow oh = some (sw * ow / fw, sh * oh / fh) :=
  resolveDimensions_eq_of_lt sw sh fw fh ow oh hfw hfh hw hh

theorem resolve_dimensions_truncating_witness :
    resolveDimensions 200 100 4 2 8 2 = some (400, 100) :=
  resolve_dimensions_truncating 200 100 4 2 8 2 (by decide) (by decide)
    (by decide) (by decide)

/-- Claim C7: a zero fit dimension makes dimension resolution fail (the model
of the division-by-zero panic), and the failure propagates through the resize
pipeline — no output image is ever produced. -/
theorem resolve_zero_fit_fatal (P : Type) (z : P) (img : Image P)
    (fw fh ow oh : Nat) (h : fw = 0 ∨ fh = 0) :
    resolveDimensions img.width img.height fw fh ow oh = none ∧
    runResize z img fw fh ow oh = none := by
  have hres : resolveDimensions img.width img.height fw fh ow oh = none := by
    rcases h with rfl | rfl
    · simp [resolveDimensions, u32_div]
    · by_cases hfw : fw = 0 <;> simp [resolveDimensions, u32_div, hfw]
  exact ⟨hres, by simp [runResize, hres]⟩

theorem resolve_zero_fit_fatal_witness :
    resolveDimensions 1 1 0 1 1 1 = none ∧
    runResize (0 : Nat) ⟨1, 1, fun _ _ => 0⟩ 0 1 1 1 = none :=
  resolve_zero_fit_fatal Nat 0 ⟨1, 1, fun _ _ => 0⟩ 0 1 1 1 (Or.inl rfl)

/-- Claim C9: dimension resolution works in 32-bit unsigned arithmetic: it
returns the exact quotient whenever each product fits below 2^32, and at an
input whose product reaches 2^32 the wrapped multiplication makes the result
differ from the exact quotient. -/
theorem resolve_dimensions_u32_arithmetic :
    (∀ sw sh fw fh ow oh : Nat, fw ≠ 0 → fh ≠ 0 → sw * ow < U32 → sh * oh < U32 →
      resolveDimensions sw sh fw fh ow oh = some (sw * ow / fw, sh * oh / fh)) ∧
    U32 ≤ 65536 * 65536 ∧
    resolveDimensions 65536 1 1 1 65536 1 = some (65536 * 65536 % U32 / 1, 1 * 1 % U32 / 1) ∧
    resolveDimensions 65536 1 1 1 65536 1 ≠ some (65536 * 65536 / 1, 1 * 1 / 1) := by
  refine ⟨?_, by decide, by decide, by decide⟩
  intro sw sh fw fh ow oh hfw hfh hw hh
  exact resolveDimensions_eq_of_lt sw sh fw fh ow oh hfw hfh hw hh

theorem resolve_dimensions_u32_arithmetic_witness :
    resolveDimensions 3 5 2 2 7 9 = some (3 * 7 / 2, 5 * 9 / 2) :=
  resolve_dimensions_u32_arithmetic.1 3 5 2 2 7 9 (by decide) (by decide)
    (by decide) (by decide)

/-- Claim C8: parsing fails with the missing-separator error exactly when the
string has no lowercase x; it fails with the propagated numeric-parse error
when either half around the first separator fails integer parsing; and it
succeeds, returning the two parsed integers, when both halves parse. -/
theorem size_parse_errors (s l r : List Char) (w hgt : Nat) :
    (Size.from_str s = .error (.missingSeparator s) ↔ 'x' ∉ s) ∧
    ('x' ∉ l → (parse_u32 l = none ∨ parse_u32 r = none) →
      Size.from_str (l ++ 'x' :: r) = .error .dimensionParseError) ∧
    ('x' ∉ l → parse_u32 l = some w → parse_u32 r = some hgt →
      Size.from_str (l ++ 'x' :: r) = .ok (w, hgt)) := by
  refine ⟨from_str_missing_iff s, ?_, ?_⟩
  · intro h hparse
    rw [from_str_split l r h]
    rcases hparse with h1 | h1
    · rw [h1]
    · rcases h2 : parse_u32 l with _ | w2 <;> simp [h1]
  · intro h h1 h2
    rw [from_str_split l r h, h1, h2]

theorem size_parse_errors_witness :
    Size.from_str ('1' :: '0' :: '0' :: []) =
      .error (.missingSeparator ('1' :: '0' :: '0' :: [])) ∧
    Size.from_str ('1' :: '0' :: '0' :: 'x' :: 'Z' :: 'Z' :: []) =
      .error .dimensionParseError ∧
    Size.from_str ('1' :: '0' :: '0' :: 'x' :: '2' :: '0' :: '0' :: []) =
      .ok (100, 200) :=
  ⟨(size_parse_errors ('1' :: '0' :: '0' :: []) [] [] 0 0).1.mpr (by decide),
    (size_parse_errors [] ('1' :: '0' :: '0' :: []) ('Z' :: 'Z' :: []) 0 0).2.1
      (by decide) (Or.inr (by decide)),
    (size_parse_errors [] ('1' :: '0' :: '0' :: []) ('2' :: '0' :: '0' :: []) 100 200).2.2
      (by decide) (by decide) (by decide)⟩

/-- Claim C10: the separator is the first lowercase x only — the text before it
and the entire remainder after it must each parse as one integer; an uppercase
X yields the missing-separator error, and extra x characters land in the
remainder, which then fails numeric parsing. -/
theorem size_parse_first_separator (l r : List Char) :
    ('x' ∉ l →
      Size.from_str (l ++ 'x' :: r) =
        match parse_u32 l with
        | none => .error .dimensionParseError
        | some w =>
          match parse_u32 r with
          | none => .error .dimensionParseError
          | some hgt => .ok (w, hgt)) ∧
    Size.from_str ('1' :: '0' :: '0' :: 'X' :: '2' :: '0' :: '0' :: []) =
      .error (.missingSeparator ('1' :: '0' :: '0' :: 'X' :: '2' :: '0' :: '0' :: [])) ∧
    Size.from_str ('1' :: 'x' :: '2' :: 'x' :: '3' :: []) =
      .error .dimensionParseError := by
  refine ⟨from_str_split l r, rfl, rfl⟩

theorem size_parse_first_separator_witness :
    Size.from_str ('1' :: '2' :: 'x' :: '3' :: 'x' :: '4' :: []) =
      .error .dimensionParseError :=
  (size_parse_first_separator ('1' :: '2' :: []) ('3' :: 'x' :: '4' :: [])).1
    (by decide)

/-- Claim C4: `repeat` overlays exactly ⌊W/w⌋ × ⌊H/h⌋ copies of the tile, one
per grid position (i, j) at pixel offset (i·w, j·h), each copy entirely within
the canvas, and no pixel outside [0, ⌊W/w⌋·w) × [0, ⌊H/h⌋·h) is modified. -/
theorem repeat_tiling_containment (P : Type) (base repeated : Image P)
    (hw : 0 < repeated.width) (hh : 0 < repeated.height) :
    ((Mix.new (List.range (base.width / repeated.width))
        (List.range (base.height / repeated.height))).toList.length =
      (base.width / repeated.width) * (base.height / repeated.height)) ∧
    (∀ i j : Nat,
      (i, j) ∈ (Mix.new (List.range (base.width / repeated.width))
          (List.range (base.height / repeated.height))).toList ↔
        i < base.width / repeated.width ∧ j < base.height / repeated.height) ∧
    ((Mix.new (List.range (base.width / repeated.width))
        (List.range (base.height / repeated.height))).toList.Nodup) ∧
    (∀ p ∈ (Mix.new (List.range (base.width / repeated.width))
        (List.range (base.height / repeated.height))).toList,
      p.1 * repeated.width + repeated.width ≤ base.width ∧
      p.2 * repeated.height + repeated.height ≤ base.height) ∧
    («repeat» base repeated).width = base.width ∧
    («repeat» base repeated).height = base.height ∧
    (∀ i j dx dy : Nat, i < base.width / repeated.width →
      j < base.height / repeated.height → dx < repeated.width →
      dy < repeated.height →
      («repeat» base repeated).pix (i * repeated.width + dx)
          (j * repeated.height + dy) =
        repeated.pix dx dy) ∧
    (∀ px py : Nat,
      ((base.width / repeated.width) * repeated.width ≤ px ∨
        (base.height / repeated.height) * repeated.height ≤ py) →
      («repeat» base repeated).pix px py = base.pix px py) := by
  have hL : (Mix.new (List.range (base.width / repeated.width))
      (List.range (base.height / repeated.height))).toList =
      List.range (base.width / repeated.width) ×ˢ
        List.range (base.height / repeated.height) :=
    Mix.toList_new_product _ _
  have hmem : ∀ i j : Nat,
      (i, j) ∈ (Mix.new (List.range (base.width / repeated.width))
          (List.range (base.height / repeated.height))).toList ↔
        i < base.width / repeated.width ∧ j < base.height / repeated.height := by
    intro i j
    rw [hL, List.mem_product, List.mem_range, List.mem_range]
  have hxbound : ∀ i, i < base.width / repeated.width →
      i * repeated.width + repeated.width ≤ base.width := by
    intro i hi
    have h1 : (i + 1) * repeated.width ≤
        (base.width / repeated.width) * repeated.width :=
      Nat.mul_le_mul_right _ hi
    have h2 : (base.width / repeated.width) * repeated.width ≤ base.width :=
      Nat.div_mul_le_self _ _
    rw [Nat.succ_mul] at h1
    omega
  have hybound : ∀ j, j < base.height / repeated.height →
      j * repeated.height + repeated.height ≤ base.height := by
    intro j hj
    have h1 : (j + 1) * repeated.height ≤
        (base.height / repeated.height) * repeated.height :=
      Nat.mul_le_mul_right _ hj
    have h2 : (base.height / repeated.height) * repeated.height ≤ base.height :=
      Nat.div_mul_le_self _ _
    rw [Nat.succ_mul] at h1
    omega
  refine ⟨?_, hmem, ?_, ?_, ?_, ?_, ?_, ?_⟩
  · rw [hL, List.length_product, List.length_range, List.length_range]
  · rw [hL]
    exact (List.nodup_range _).product (List.nodup_range _)
  · intro p hp
    obtain ⟨h1, h2⟩ := (hmem p.1 p.2).mp hp
    exact ⟨hxbound p.1 h1, hybound p.2 h2⟩
  · rw [repeat_eq_place]
    exact place_width _ _ _
  · rw [repeat_eq_place]
    exact place_height _ _ _
  · intro i j dx dy hi hj hdx hdy
    have hmem2 : (i, j) ∈ (Mix.new (List.range (base.width / repeated.width))
        (List.range (base.height / repeated.height))).toList :=
      (hmem i j).mpr ⟨hi, hj⟩
    obtain ⟨l1, l2, hsplit⟩ := List.append_of_mem hmem2
    rw [repeat_eq_place, hsplit]
    have hcov : i * repeated.width ≤ i * repeated.width + dx ∧
        i * repeated.width + dx < i * repeated.width + repeated.width ∧
        j * repeated.height ≤ j * repeated.height + dy ∧
        j * repeated.height + dy < j * repeated.height + repeated.height :=
      ⟨Nat.le_add_right _ _, by omega, Nat.le_add_right _ _, by omega⟩
    have hpx : i * repeated.width + dx < base.width := by
      have := hxbound i hi
      omega
    have hpy : j * repeated.height + dy < base.height := by
      have := hybound j hj
      omega
    have huniq : ∀ p ∈ l2, covers repeated.width repeated.height p
        (i * repeated.width + dx) (j * repeated.height + dy) → p = (i, j) := by
      intro p _ hc
      have e1 : p.1 = i := slot_eq hc.1 hc.2.1 hcov.1 hcov.2.1
      have e2 : p.2 = j := slot_eq hc.2.2.1 hc.2.2.2 hcov.2.2.1 hcov.2.2.2
      exact Prod.ext e1 e2
    rw [place_pix_set repeated l1 l2 (i, j) base
      (i * repeated.width + dx) (j * repeated.height + dy) hcov hpx hpy huniq]
    show repeated.pix (i * repeated.width + dx - i * repeated.width)
        (j * repeated.height + dy - j * repeated.height) = repeated.pix dx dy
    congr 1 <;> omega
  · intro px py hside
    rw [repeat_eq_place]
    refine place_pix_keep repeated _ base px py (base.pix px py) rfl ?_
    intro p hp hc
    exfalso
    obtain ⟨hb1, hb2⟩ := (hmem p.1 p.2).mp hp
    rcases hside with hside | hside
    · have h1 : (p.1 + 1) * repeated.width ≤
          (base.width / repeated.width) * repeated.width :=
        Nat.mul_le_mul_right _ hb1
      rw [Nat.succ_mul] at h1
      have h2 := hc.2.1
      omega
    · have h1 : (p.2 + 1) * repeated.height ≤
          (base.height / repeated.height) * repeated.height :=
        Nat.mul_le_mul_right _ hb2
      rw [Nat.succ_mul] at h1
      have h2 := hc.2.2.2
      omega

theorem repeat_tiling_containment_witness :
    («repeat» (⟨100, 100, fun _ _ => (0 : Nat)⟩ : Image Nat)
        ⟨25, 25, fun dx dy => dx + 100 * dy⟩).pix (1 * 25 + 5) (2 * 25 + 7) =
      5 + 100 * 7 :=
  (repeat_tiling_containment Nat ⟨100, 100, fun _ _ => 0⟩
      ⟨25, 25, fun dx dy => dx + 100 * dy⟩ (by decide) (by decide)).2.2.2.2.2.2.1
    1 2 5 7 (by decide) (by decide) (by decide) (by decide)

end ImgResize
